import Mathlib

/-!
Verification of the BonanzaEcho transcription pipeline.

This file gives a shallow embedding of the algorithmic parts of the
repository and proves the specified properties about them:

* `segmentWords` — the Segmenter loop of `processTranscription`
  (src/utils/assemblyAI.js, lines 117-159);
* `pollAux` / `pollForTranscriptionCompletion` — the polling loop
  (src/utils/assemblyAI.js, lines 75-93);
* `processTranscription` / `transcribeEpisode` — the orchestration
  (src/utils/assemblyAI.js, lines 101-242), with the database modelled as
  an environment of per-operation outcomes and episode-status writes
  recorded as a trace;
* `clipRequestRejected` / `generateClip` — clip creation
  (src/routes/publicRoutes.js, lines 189-211 and
  src/utils/clipGenerator.js, lines 164-201);
* `getRelatedKeywords` — the related-keywords heuristic
  (src/utils/searchUtils.js, lines 198-251), with the segment fetch
  modelled as an environment function.

JavaScript numbers are modelled as exact rationals (`ℚ`), and the
JavaScript string operations used by the code (`trim`, `toLowerCase`,
`split(/\s+/)`) are modelled at the character level.
-/

/-- JS `String.prototype.trim`, modelled on the character list: drop
whitespace characters from both ends of the string. -/
def jsTrim (s : String) : String :=
  ⟨((s.data.dropWhile Char.isWhitespace).reverse.dropWhile Char.isWhitespace).reverse⟩

/-- JS `String.prototype.toLowerCase`, modelled characterwise. -/
def jsToLower (s : String) : String :=
  ⟨s.data.map Char.toLower⟩

/-- Splitting a character list at every whitespace character.  JS
`split(/\s+/)` splits at whitespace *runs*; the only difference is extra
empty pieces, which every caller in the source immediately discards with
a `length > 3` filter. -/
def splitWsAux : List Char → List Char → List (List Char)
  | [], acc => [acc.reverse]
  | c :: cs, acc =>
    if c.isWhitespace then acc.reverse :: splitWsAux cs []
    else splitWsAux cs (c :: acc)

/-- JS `split(/\s+/)` on a string (up to empty pieces, see `splitWsAux`). -/
def jsSplitWs (s : String) : List String :=
  (splitWsAux s.data []).map (fun l => ⟨l⟩)

/-- One timed word of the transcription payload: `start`/`end` are
timestamps in milliseconds, `text` the literal word. -/
structure Word where
  start : ℚ
  «end» : ℚ
  text : String
  deriving Repr, DecidableEq

instance : Inhabited Word := ⟨⟨0, 0, ""⟩⟩

/-- One output segment (the `transcript_id`/`episode_id` columns are
constants of the enclosing call and are omitted). -/
structure Segment where
  start_time : ℚ
  end_time : ℚ
  text : String
  deriving Repr, DecidableEq

/-- Source: `const segmentDuration = 30; // seconds`. -/
def segmentDuration : ℚ := 30

/-- State of the segmentation loop in `processTranscription`:
`segStart` is `segmentStart` (seconds), `segText` is `segmentText`,
`cur` is `currentSegment`, `segs` the `segments` array built so far. -/
structure SegState where
  segStart : ℚ
  segText : String
  cur : List Word
  segs : List Segment
  deriving Repr, DecidableEq

/-- Seconds-denominated end time of the last accumulated word; source:
`currentSegment[currentSegment.length - 1].end / 1000`. -/
def lastEnd (cur : List Word) : ℚ :=
  match cur.getLast? with
  | some w => w.«end» / 1000
  | none => 0

/-- Body of `for (const word of transcriptionData.words)` in
`processTranscription` (src/utils/assemblyAI.js, lines 126-148). -/
def stepWord (st : SegState) (w : Word) : SegState :=
  let wordStart : ℚ := w.start / 1000
  let wordEnd : ℚ := w.«end» / 1000
  let st' :=
    if wordEnd - st.segStart > segmentDuration ∧ 0 < st.cur.length then
      { segStart := wordStart
        segText := ""
        cur := []
        segs := st.segs ++ [{ start_time := st.segStart
                              end_time := lastEnd st.cur
                              text := jsTrim st.segText }] }
    else st
  { st' with cur := st'.cur ++ [w], segText := st'.segText ++ " " ++ w.text }

/-- The Segmenter: the word-grouping part of `processTranscription`
(src/utils/assemblyAI.js, lines 117-159), including the final flush. -/
def segmentWords (words : List Word) : List Segment :=
  match words with
  | [] => []
  | w0 :: _ =>
    let final := words.foldl stepWord
      { segStart := w0.start / 1000, segText := "", cur := [], segs := [] }
    if 0 < final.cur.length then
      final.segs ++ [{ start_time := final.segStart
                       end_time := lastEnd final.cur
                       text := jsTrim final.segText }]
    else final.segs

/-- Seconds-denominated start time of the first word of a block. -/
def headStart (b : List Word) : ℚ :=
  match b.head? with
  | some w => w.start / 1000
  | none => 0

/-- The segment the Segmenter produces from one block of consecutive
words: it spans from the first word's start to the last word's end and
carries the trimmed space-join of the words' texts. -/
def mkBlockSeg (b : List Word) : Segment :=
  { start_time := headStart b
    end_time := lastEnd b
    text := jsTrim (String.join (b.map fun w => " " ++ w.text)) }

/-- Loop invariant tying a segmentation state to the prefix of the input
already processed: the emitted segments come from a partition of the
processed words into nonempty consecutive blocks, with the running
segment `cur` as the still-open final block. -/
def SegInv (processed : List Word) (st : SegState) : Prop :=
  ∃ blocks : List (List Word),
    ([] ∉ blocks) ∧
    blocks.flatten ++ st.cur = processed ∧
    st.segs = blocks.map mkBlockSeg ∧
    st.segText = String.join (st.cur.map fun w => " " ++ w.text) ∧
    st.cur ≠ [] ∧
    st.segStart = headStart st.cur

/-- One status/result fetch from the transcription provider
(`getTranscriptionResult`): only the fields the code reads.  The
completed payload carries the timed words and the reported audio length
(`audio_duration`, treated by the code as milliseconds). -/
structure PollResponse where
  status : String
  error : String
  words : List Word
  audio_duration : ℚ
  deriving Repr, DecidableEq

/-- How `pollForTranscriptionCompletion` can finish: return the completed
payload, raise `Transcription failed: ...`, or raise the timeout. -/
inductive PollOutcome where
  | completed (result : PollResponse)
  | failed (msg : String)
  | timedOut (msg : String)
  deriving Repr, DecidableEq

/-- Observable behaviour of one run of the polling loop: the outcome, the
number of status fetches performed, and the durations (ms) of the sleeps
between fetches. -/
structure PollRun where
  outcome : PollOutcome
  fetches : Nat
  sleeps : List Nat
  deriving Repr, DecidableEq

/-- The `while (attempts < maxAttempts)` loop of
`pollForTranscriptionCompletion` (src/utils/assemblyAI.js, lines 75-93),
with the sequence of provider responses modelled as `getResult` indexed
by attempt number.  `remaining` is `maxAttempts - attempts`, the number
of loop iterations still allowed. -/
def pollAux (getResult : Nat → PollResponse) (interval : Nat) :
    Nat → Nat → PollRun
  | 0, _ => { outcome := .timedOut "Transcription timed out", fetches := 0, sleeps := [] }
  | remaining + 1, attempts =>
    let result := getResult attempts
    if result.status = "completed" then
      { outcome := .completed result, fetches := 1, sleeps := [] }
    else if result.status = "error" then
      { outcome := .failed ("Transcription failed: " ++ result.error)
        fetches := 1, sleeps := [] }
    else
      let rest := pollAux getResult interval remaining (attempts + 1)
      { outcome := rest.outcome, fetches := rest.fetches + 1, sleeps := interval :: rest.sleeps }

/-- Entry point of the polling loop; the source's defaults are
`interval = 30000` and `maxAttempts = 20`, and its one caller
(`transcribeEpisode`) uses them. -/
def pollForTranscriptionCompletion (getResult : Nat → PollResponse)
    (interval maxAttempts : Nat) : PollRun :=
  pollAux getResult interval maxAttempts 0

/-- A provider response that stops the polling loop. -/
def isTerminal (r : PollResponse) : Prop :=
  r.status = "completed" ∨ r.status = "error"

instance (r : PollResponse) : Decidable (isTerminal r) := by
  unfold isTerminal
  infer_instance

/-- One write to the episode row that the orchestration performs: the
status value and, when present, the duration column. -/
structure EpisodeUpdate where
  transcription_status : String
  duration : Option ℤ
  deriving Repr, DecidableEq

/-- Outcomes of the three fallible Supabase operations inside
`processTranscription` (`none` = the operation reports no error). -/
structure DbEnv where
  insertTranscriptError : Option String
  insertSegmentsError : Option String
  updateEpisodeError : Option String

/-- Result of `processTranscription`: the episode-row writes it performed
(in order) and its return value — `Except` models the rethrown error. -/
structure ProcResult where
  updates : List EpisodeUpdate
  result : Except String Bool

/-- The `processTranscription` function (src/utils/assemblyAI.js, lines
101-198): save the raw transcript, segment and save the words, then
update the episode to `completed` with the duration
`Math.ceil(audio_duration / 1000)`; any error makes the catch block write
`failed` and rethrow. -/
def processTranscription (db : DbEnv) (data : PollResponse) : ProcResult :=
  match db.insertTranscriptError with
  | some m =>
    { updates := [{ transcription_status := "failed", duration := none }]
      result := .error ("Error saving transcript: " ++ m) }
  | none =>
    let segments := segmentWords data.words
    match (if 0 < segments.length then db.insertSegmentsError else none) with
    | some m =>
      { updates := [{ transcription_status := "failed", duration := none }]
        result := .error ("Error saving segments: " ++ m) }
    | none =>
      match db.updateEpisodeError with
      | some m =>
        { updates := [{ transcription_status := "failed", duration := none }]
          result := .error ("Error updating episode: " ++ m) }
      | none =>
        { updates := [{ transcription_status := "completed"
                        duration := some ⌈data.audio_duration / 1000⌉ }]
          result := .ok true }

/-- Environment of one orchestration run: the database outcomes, the
result of the transcription submission, and the provider's polling
responses. -/
structure OrchEnv where
  db : DbEnv
  requestResult : Except String String
  getResult : Nat → PollResponse

/-- Result of `transcribeEpisode`: the episode-row writes (in order) and
the value the function returns to its caller. -/
structure OrchResult where
  updates : List EpisodeUpdate
  success : Bool
  transcriptId : Option String
  errorMsg : Option String

/-- The `transcribeEpisode` orchestration (src/utils/assemblyAI.js,
lines 207-242): write `in_progress`, submit, poll with the default
interval and attempt ceiling, process; the catch block writes `failed`
and returns `{ success: false }` instead of rethrowing. -/
def transcribeEpisode (env : OrchEnv) : OrchResult :=
  let pre : List EpisodeUpdate := [{ transcription_status := "in_progress", duration := none }]
  match env.requestResult with
  | .error e =>
    { updates := pre ++ [{ transcription_status := "failed", duration := none }]
      success := false, transcriptId := none, errorMsg := some e }
  | .ok tid =>
    match (pollForTranscriptionCompletion env.getResult 30000 20).outcome with
    | .failed m =>
      { updates := pre ++ [{ transcription_status := "failed", duration := none }]
        success := false, transcriptId := none, errorMsg := some m }
    | .timedOut m =>
      { updates := pre ++ [{ transcription_status := "failed", duration := none }]
        success := false, transcriptId := none, errorMsg := some m }
    | .completed data =>
      let proc := processTranscription env.db data
      match proc.result with
      | .error m =>
        { updates := (pre ++ proc.updates) ++ [{ transcription_status := "failed", duration := none }]
          success := false, transcriptId := none, errorMsg := some m }
      | .ok _ =>
        { updates := pre ++ proc.updates
          success := true, transcriptId := some tid, errorMsg := none }

/-- All four orchestration steps succeed: submission returns an id, the
poll reports a completed payload, and transcript/segment persistence and
the final episode update raise no error. -/
def orchAllOk (env : OrchEnv) : Prop :=
  ∃ tid d, env.requestResult = Except.ok tid ∧
    (pollForTranscriptionCompletion env.getResult 30000 20).outcome = PollOutcome.completed d ∧
    (processTranscription env.db d).result = Except.ok true

/-- Body of `POST /api/public/clips` as received by the route handler:
`none` models an absent (`undefined`) field. -/
structure ClipRequestBody where
  episode_id : Option String
  start_time : Option ℚ
  end_time : Option ℚ
  transcript_text : Option String
  search_query : Option String

/-- JS falsiness of an optional string (`!episode_id`): absent or empty. -/
def jsFalsy : Option String → Bool
  | none => true
  | some s => s == ""

/-- The only validation the clips route performs before building a clip
(src/routes/publicRoutes.js, lines 190-194):
`if (!episode_id || start_time === undefined || end_time === undefined)`. -/
def clipRequestRejected (b : ClipRequestBody) : Bool :=
  jsFalsy b.episode_id || b.start_time == none || b.end_time == none

/-- A persisted clip row. -/
structure ClipRecord where
  episode_id : String
  start_time : ℚ
  end_time : ℚ
  transcript_text : Option String
  search_query : Option String
  audio_clip_url : String
  deriving Repr, DecidableEq

/-- The `generateClip` function (src/utils/clipGenerator.js, lines
164-201) after the successful episode lookup (modelled by passing the
fetched `audio_file_url`): the active strategy builds the time-fragment
URL; the physical-trim call (`createAudioClip`) is commented out in the
source. -/
def generateClip (audio_file_url : String) (episode_id : String)
    (start_time end_time : ℚ) (transcript_text search_query : Option String) : ClipRecord :=
  { episode_id := episode_id
    start_time := start_time
    end_time := end_time
    transcript_text := transcript_text
    search_query := search_query
    audio_clip_url := audio_file_url ++ "#t=" ++ toString start_time ++ "," ++ toString end_time }

/-- The segment query `getRelatedKeywords` issues: the disjunctive
text-search string and the row limit. -/
structure SegmentsRequest where
  tsquery : String
  limit : Nat
  deriving Repr, DecidableEq

/-- Observable behaviour of `getRelatedKeywords`: the segment fetch it
issued (if any) and the returned keyword list. -/
structure RelatedOutcome where
  request : Option SegmentsRequest
  keywords : List String
  deriving Repr, DecidableEq

/-- Source: `query.toLowerCase().split(/\s+/).filter(word => word.length > 3)`. -/
def queryWordsOf (query : String) : List String :=
  (jsSplitWs (jsToLower query)).filter (fun w => 3 < w.length)

/-- Source: the `forEach` that joins the query words with `' | '`. -/
def buildTextSearchQuery : List String → String
  | [] => ""
  | w :: ws => ws.foldl (fun acc x => acc ++ " | " ++ x) w

/-- One step of `wordCounts[word] = (wordCounts[word] || 0) + 1`, on an
association list kept in first-occurrence order. -/
def bumpCount (counts : List (String × Nat)) (w : String) : List (String × Nat) :=
  if counts.any (fun p => p.1 == w) then
    counts.map (fun p => if p.1 == w then (p.1, p.2 + 1) else p)
  else counts ++ [(w, 1)]

/-- The word-frequency table of `getRelatedKeywords`. -/
def wordCounts (ws : List String) : List (String × Nat) :=
  ws.foldl bumpCount []

/-- Invariant of the frequency-table fold in `getRelatedKeywords`: after
seeing the words `seen`, the association list `counts` has pairwise
distinct keys, each entry holds the exact occurrence count of its key in
`seen`, and its keys are exactly the words seen so far. -/
def CountsInv (seen : List String) (counts : List (String × Nat)) : Prop :=
  (counts.map Prod.fst).Nodup ∧
  (∀ p ∈ counts, p.2 = seen.count p.1) ∧
  (∀ w, w ∈ seen ↔ w ∈ counts.map Prod.fst)

/-- The candidate-token pool of `getRelatedKeywords` (its `allWords`):
all lower-cased whitespace tokens of the fetched segment texts, keeping
only tokens longer than 3 characters that are not query words. -/
def relatedPool (query : String) (segTexts : List String) : List String :=
  ((segTexts.flatMap fun t => jsSplitWs (jsToLower t)).filter
      (fun w => 3 < w.length)).filter (fun w => !((queryWordsOf query).contains w))

/-- The `getRelatedKeywords` function (src/utils/searchUtils.js, lines
198-251), with the Supabase segment fetch modelled as the environment
function `fetchSegments`; `.sort((a, b) => b[1] - a[1])` is JS's stable
sort by descending count, modelled by `mergeSort`. -/
def getRelatedKeywords (fetchSegments : SegmentsRequest → Except String (List String))
    (query : String) : RelatedOutcome :=
  let queryWords := queryWordsOf query
  if queryWords.length = 0 then { request := none, keywords := [] }
  else
    let req : SegmentsRequest := { tsquery := buildTextSearchQuery queryWords, limit := 50 }
    match fetchSegments req with
    | .error _ => { request := some req, keywords := [] }
    | .ok segTexts =>
      let allWords := relatedPool query segTexts
      let relatedKeywords :=
        (((wordCounts allWords).mergeSort (fun a b => decide (b.2 ≤ a.2))).take 10).map
          (fun p => p.1)
      { request := some req, keywords := relatedKeywords }

theorem join_concat (l : List String) (x : String) :
    String.join (l ++ [x]) = String.join l ++ x := by
  simp [String.join, List.foldl_append]

theorem headStart_append_left (l₁ l₂ : List Word) (h : l₁ ≠ []) :
    headStart (l₁ ++ l₂) = headStart l₁ := by
  obtain ⟨x, xs, rfl⟩ := List.exists_cons_of_ne_nil h
  simp [headStart]

theorem lastEnd_concat (l : List Word) (w : Word) :
    lastEnd (l ++ [w]) = w.«end» / 1000 := by
  simp [lastEnd, List.getLast?_concat]

theorem stepWord_segInv {processed : List Word} {st : SegState} (w : Word)
    (h : SegInv processed st) : SegInv (processed ++ [w]) (stepWord st w) := by
  obtain ⟨blocks, hnb, hflat, hsegs, htext, hne, hstart⟩ := h
  by_cases hc : w.«end» / 1000 - st.segStart > segmentDuration ∧ 0 < st.cur.length
  · refine ⟨blocks ++ [st.cur], ?_, ?_, ?_, ?_, ?_, ?_⟩
    · simp only [List.mem_append, List.mem_singleton]
      rintro (h | h)
      · exact hnb h
      · exact hne h.symm
    · rw [← hflat]
      simp [stepWord, if_pos hc, List.flatten_append, List.append_assoc]
    · simp only [stepWord, if_pos hc, List.map_append, List.map_cons, List.map_nil]
      rw [hsegs]
      congr 1
      simp [mkBlockSeg, hstart, htext]
    · simp only [stepWord, if_pos hc, List.nil_append, List.map_cons, List.map_nil]
      simp [String.join]
    · simp [stepWord, if_pos hc]
    · simp [stepWord, if_pos hc, headStart]
  · refine ⟨blocks, hnb, ?_, ?_, ?_, ?_, ?_⟩
    · simp only [stepWord, if_neg hc]
      rw [← List.append_assoc, hflat]
    · simpa only [stepWord, if_neg hc] using hsegs
    · simp only [stepWord, if_neg hc, List.map_append, List.map_cons, List.map_nil]
      rw [htext, join_concat, String.append_assoc]
    · simp [stepWord, if_neg hc]
    · simp only [stepWord, if_neg hc]
      rw [headStart_append_left _ _ hne]
      exact hstart

theorem foldl_segInv (rest : List Word) :
    ∀ {processed : List Word} {st : SegState}, SegInv processed st →
      SegInv (processed ++ rest) (rest.foldl stepWord st) := by
  induction rest with
  | nil => intro p st h; simpa using h
  | cons w rest ih =>
    intro p st h
    have h2 := ih (stepWord_segInv w h)
    simpa [List.append_assoc] using h2

theorem segInv_first (w : Word) :
    SegInv [w] (stepWord { segStart := w.start / 1000, segText := "", cur := [], segs := [] } w) := by
  refine ⟨[], by simp, ?_, ?_, ?_, ?_, ?_⟩ <;>
    simp [stepWord, headStart, String.join]

theorem segmentWords_blocks (words : List Word) :
    ∃ blocks : List (List Word), ([] ∉ blocks) ∧ blocks.flatten = words ∧
      segmentWords words = blocks.map mkBlockSeg := by
  match words with
  | [] => exact ⟨[], by simp, by simp, by simp [segmentWords]⟩
  | w0 :: rest =>
    have h := foldl_segInv rest (segInv_first w0)
    set final := rest.foldl stepWord
      (stepWord { segStart := w0.start / 1000, segText := "", cur := [], segs := [] } w0)
      with hfin
    obtain ⟨blocks, hnb, hflat, hsegs, htext, hne, hstart⟩ := h
    refine ⟨blocks ++ [final.cur], ?_, ?_, ?_⟩
    · simp only [List.mem_append, List.mem_singleton]
      rintro (h | h)
      · exact hnb h
      · exact hne h.symm
    · simp only [List.flatten_append, List.flatten_cons, List.flatten_nil, List.append_nil]
      rw [hflat]
      simp
    · have hpos : 0 < final.cur.length := List.length_pos.mpr hne
      simp only [segmentWords, List.foldl_cons, ← hfin, if_pos hpos, List.map_append,
        List.map_cons, List.map_nil]
      rw [hsegs]
      congr 1
      simp [mkBlockSeg, hstart, htext]

theorem chain'_blocks (blocks : List (List Word))
    (hnb : [] ∉ blocks)
    (hsort : List.Pairwise (fun a b : Word => a.start ≤ b.start ∧ a.«end» ≤ b.«end»)
      blocks.flatten) :
    List.Chain' (fun s t : Segment => s.start_time ≤ t.start_time ∧ s.end_time ≤ t.end_time)
      (blocks.map mkBlockSeg) := by
  rw [List.chain'_map]
  refine List.Pairwise.chain' ?_
  have h2 := (List.pairwise_flatten.mp hsort).2
  refine h2.imp_of_mem ?_
  intro a b ha hb hr
  have hane : a ≠ [] := fun h => hnb (h ▸ ha)
  have hbne : b ≠ [] := fun h => hnb (h ▸ hb)
  constructor
  · obtain ⟨x, xs, rfl⟩ := List.exists_cons_of_ne_nil hane
    obtain ⟨y, ys, rfl⟩ := List.exists_cons_of_ne_nil hbne
    have hxy := hr x (by simp) y (by simp)
    simpa [mkBlockSeg, headStart] using div_le_div_of_nonneg_right hxy.1 (by norm_num)
  · have hxy := hr _ (List.getLast_mem hane) _ (List.getLast_mem hbne)
    have h3 : lastEnd a = (a.getLast hane).«end» / 1000 := by
      simp [lastEnd, List.getLast?_eq_getLast _ hane]
    have h4 : lastEnd b = (b.getLast hbne).«end» / 1000 := by
      simp [lastEnd, List.getLast?_eq_getLast _ hbne]
    simp only [mkBlockSeg, h3, h4]
    exact div_le_div_of_nonneg_right hxy.2 (by norm_num)

/-- C1: for every ordered input sequence of timed words (start and end
times non-decreasing along the input), the Segmenter's output is the
image of a partition of the input into nonempty consecutive blocks —
each segment's text is the trimmed space-join of its block's words, so
the concatenated segment texts carry every input word exactly once in
input order — and both start and end times of consecutive segments are
non-decreasing. -/
theorem segmenter_order_preservation (words : List Word)
    (hsort : List.Pairwise (fun a b : Word => a.start ≤ b.start ∧ a.«end» ≤ b.«end») words) :
    (∃ blocks : List (List Word), ([] ∉ blocks) ∧ blocks.flatten = words ∧
        segmentWords words = blocks.map mkBlockSeg) ∧
    List.Chain' (fun s t : Segment => s.start_time ≤ t.start_time ∧ s.end_time ≤ t.end_time)
      (segmentWords words) := by
  obtain ⟨blocks, hnb, hflat, hsegs⟩ := segmentWords_blocks words
  refine ⟨⟨blocks, hnb, hflat, hsegs⟩, ?_⟩
  rw [hsegs]
  exact chain'_blocks blocks hnb (by rw [hflat]; exact hsort)

theorem segmenter_order_preservation_witness :
    (∃ blocks : List (List Word), ([] ∉ blocks) ∧
        blocks.flatten = [⟨0, 15000, "a"⟩, ⟨16000, 40000, "b"⟩] ∧
        segmentWords [⟨0, 15000, "a"⟩, ⟨16000, 40000, "b"⟩] = blocks.map mkBlockSeg) ∧
    List.Chain' (fun s t : Segment => s.start_time ≤ t.start_time ∧ s.end_time ≤ t.end_time)
      (segmentWords [⟨0, 15000, "a"⟩, ⟨16000, 40000, "b"⟩]) :=
  segmenter_order_preservation [⟨0, 15000, "a"⟩, ⟨16000, 40000, "b"⟩]
    (by norm_num [List.pairwise_cons])

/-- C2: while scanning, a running segment is closed exactly when the
current word's end time minus the running segment's start time strictly
exceeds 30 seconds and the running segment is nonempty; the closed
segment records its first word's start, its last accumulated word's end
(not the current word's end) and the trimmed space-join of the
accumulated words, and the next segment starts at the current word's
start. -/
theorem segmenter_close_rule (st : SegState) (w : Word)
    (hstart : st.cur ≠ [] → st.segStart = headStart st.cur)
    (htext : st.segText = String.join (st.cur.map fun w => " " ++ w.text)) :
    ((stepWord st w).segs ≠ st.segs ↔ (w.«end» / 1000 - st.segStart > 30 ∧ st.cur ≠ [])) ∧
    ((w.«end» / 1000 - st.segStart > 30 ∧ st.cur ≠ []) →
      (stepWord st w).segs = st.segs ++
          [{ start_time := headStart st.cur
             end_time := lastEnd st.cur
             text := jsTrim (String.join (st.cur.map fun w => " " ++ w.text)) }] ∧
        (stepWord st w).segStart = w.start / 1000 ∧
        (stepWord st w).cur = [w]) := by
  by_cases hc : w.«end» / 1000 - st.segStart > segmentDuration ∧ 0 < st.cur.length
  · have hc' : w.«end» / 1000 - st.segStart > 30 ∧ st.cur ≠ [] := by
      simpa [segmentDuration, List.length_pos] using hc
    constructor
    · simp only [stepWord, if_pos hc]
      refine ⟨fun _ => hc', fun _ => ?_⟩
      intro h
      have := congrArg List.length h
      simp at this
    · intro _
      refine ⟨?_, ?_, ?_⟩
      · simp only [stepWord, if_pos hc]
        rw [hstart hc'.2, htext]
      · simp [stepWord, if_pos hc]
      · simp [stepWord, if_pos hc]
  · have hc' : ¬(w.«end» / 1000 - st.segStart > 30 ∧ st.cur ≠ []) := by
      simpa [segmentDuration, List.length_pos] using hc
    constructor
    · simp only [stepWord, if_neg hc]
      exact ⟨fun h => absurd rfl h, fun h => absurd h hc'⟩
    · intro h
      exact absurd h hc'

theorem segmenter_close_rule_witness :
    ((stepWord ⟨0, " hi", [⟨0, 40000, "hi"⟩], []⟩ ⟨41000, 42000, "yo"⟩).segs ≠
        (⟨0, " hi", [⟨0, 40000, "hi"⟩], []⟩ : SegState).segs ↔
      ((42000 : ℚ) / 1000 - 0 > 30 ∧ ([⟨0, 40000, "hi"⟩] : List Word) ≠ [])) ∧
    (((42000 : ℚ) / 1000 - 0 > 30 ∧ ([⟨0, 40000, "hi"⟩] : List Word) ≠ []) →
      (stepWord ⟨0, " hi", [⟨0, 40000, "hi"⟩], []⟩ ⟨41000, 42000, "yo"⟩).segs =
          [] ++ [{ start_time := headStart [⟨0, 40000, "hi"⟩]
                   end_time := lastEnd [⟨0, 40000, "hi"⟩]
                   text := jsTrim (String.join (([⟨0, 40000, "hi"⟩] : List Word).map
                     fun w => " " ++ w.text)) }] ∧
        (stepWord ⟨0, " hi", [⟨0, 40000, "hi"⟩], []⟩ ⟨41000, 42000, "yo"⟩).segStart =
          (41000 : ℚ) / 1000 ∧
        (stepWord ⟨0, " hi", [⟨0, 40000, "hi"⟩], []⟩ ⟨41000, 42000, "yo"⟩).cur =
          [⟨41000, 42000, "yo"⟩]) :=
  segmenter_close_rule ⟨0, " hi", [⟨0, 40000, "hi"⟩], []⟩ ⟨41000, 42000, "yo"⟩
    (fun _ => by norm_num [headStart]) (by simp [String.join])

/-- C3: an input consisting of exactly one word, of any duration, yields
exactly one segment carrying that word's start, end and text; the word is
never split. -/
theorem segmenter_single_word (w : Word) :
    segmentWords [w] =
      [{ start_time := w.start / 1000, end_time := w.«end» / 1000,
         text := jsTrim (" " ++ w.text) }] := by
  simp [segmentWords, stepWord, lastEnd, segmentDuration]

example : segmentWords [⟨0, 45000, "hello"⟩] = [⟨0, 45, "hello"⟩] := by
  norm_num [segmentWords, stepWord, lastEnd, segmentDuration]
  decide

example :
    segmentWords [⟨0, 15000, "a"⟩, ⟨15000, 30000, "b"⟩, ⟨30000, 45000, "c"⟩] =
      [⟨0, 30, "a b"⟩, ⟨30, 45, "c"⟩] := by
  norm_num [segmentWords, stepWord, lastEnd, segmentDuration]
  decide

example : segmentWords [] = [] := rfl

theorem pollAux_fetches_le (g : Nat → PollResponse) (itv : Nat) :
    ∀ remaining attempts, (pollAux g itv remaining attempts).fetches ≤ remaining := by
  intro remaining
  induction remaining with
  | zero => intro attempts; simp [pollAux]
  | succ n ih =>
    intro attempts
    by_cases h1 : (g attempts).status = "completed"
    · simp [pollAux, h1]
    · by_cases h2 : (g attempts).status = "error"
      · simp [pollAux, h1, h2]
      · have := ih (attempts + 1)
        simp only [pollAux, if_neg h1, if_neg h2]
        omega

theorem pollAux_sleeps (g : Nat → PollResponse) (itv : Nat) :
    ∀ remaining attempts, ∀ d ∈ (pollAux g itv remaining attempts).sleeps, d = itv := by
  intro remaining
  induction remaining with
  | zero => intro attempts; simp [pollAux]
  | succ n ih =>
    intro attempts
    by_cases h1 : (g attempts).status = "completed"
    · simp [pollAux, h1]
    · by_cases h2 : (g attempts).status = "error"
      · simp [pollAux, h1, h2]
      · simp only [pollAux, if_neg h1, if_neg h2, List.mem_cons]
        rintro d (rfl | hd)
        · rfl
        · exact ih (attempts + 1) d hd

theorem pollAux_first_terminal (g : Nat → PollResponse) (itv : Nat) :
    ∀ remaining attempts k, attempts ≤ k → k < attempts + remaining →
      (∀ j, attempts ≤ j → j < k → ¬ isTerminal (g j)) →
      (((g k).status = "completed" →
          (pollAux g itv remaining attempts).outcome = PollOutcome.completed (g k) ∧
          (pollAux g itv remaining attempts).fetches = k + 1 - attempts) ∧
        ((g k).status = "error" →
          (pollAux g itv remaining attempts).outcome =
            PollOutcome.failed ("Transcription failed: " ++ (g k).error) ∧
          (pollAux g itv remaining attempts).fetches = k + 1 - attempts)) := by
  intro remaining
  induction remaining with
  | zero => intro attempts k h1 h2; omega
  | succ n ih =>
    intro attempts k hak hk hmin
    rcases Nat.eq_or_lt_of_le hak with heq | hlt
    · subst heq
      constructor
      · intro hcomp
        simp [pollAux, hcomp]
      · intro herr
        have hncomp : ¬ (g attempts).status = "completed" := by
          rw [herr]; intro h; exact absurd h (by decide)
        simp [pollAux, hncomp, herr]
    · have hnterm : ¬ isTerminal (g attempts) := hmin attempts le_rfl hlt
      have hnc : ¬ (g attempts).status = "completed" := fun h => hnterm (Or.inl h)
      have hne2 : ¬ (g attempts).status = "error" := fun h => hnterm (Or.inr h)
      have hrec := ih (attempts + 1) k (by omega) (by omega)
        (fun j hj1 hj2 => hmin j (by omega) hj2)
      constructor
      · intro hcomp
        obtain ⟨ho, hf⟩ := hrec.1 hcomp
        simp only [pollAux, if_neg hnc, if_neg hne2]
        exact ⟨ho, by omega⟩
      · intro herr
        obtain ⟨ho, hf⟩ := hrec.2 herr
        simp only [pollAux, if_neg hnc, if_neg hne2]
        exact ⟨ho, by omega⟩

theorem pollAux_timeout (g : Nat → PollResponse) (itv : Nat) :
    ∀ remaining attempts,
      (∀ j, attempts ≤ j → j < attempts + remaining → ¬ isTerminal (g j)) →
      (pollAux g itv remaining attempts).outcome = PollOutcome.timedOut "Transcription timed out" ∧
      (pollAux g itv remaining attempts).fetches = remaining := by
  intro remaining
  induction remaining with
  | zero => intro attempts _; simp [pollAux]
  | succ n ih =>
    intro attempts hmin
    have hnterm : ¬ isTerminal (g attempts) := hmin attempts le_rfl (by omega)
    have hnc : ¬ (g attempts).status = "completed" := fun h => hnterm (Or.inl h)
    have hne2 : ¬ (g attempts).status = "error" := fun h => hnterm (Or.inr h)
    have hrec := ih (attempts + 1) (fun j hj1 hj2 => hmin j (by omega) (by omega))
    simp only [pollAux, if_neg hnc, if_neg hne2]
    exact ⟨hrec.1, by omega⟩

/-- C4: with the defaults used by the orchestrator (interval 30000 ms,
ceiling 20), the poll loop performs at most 20 fetches, every sleep
between fetches is exactly 30000 ms, it returns the completed payload as
soon as a fetch reports `completed`, raises the transcription-failure
error as soon as a fetch reports `error` (after k+1 fetches when the
first terminal response is at index k), and raises the timeout error
after exactly 20 fetches when no fetch reports either. -/
theorem poll_loop_behavior (getResult : Nat → PollResponse) :
    (pollForTranscriptionCompletion getResult 30000 20).fetches ≤ 20 ∧
    (∀ d ∈ (pollForTranscriptionCompletion getResult 30000 20).sleeps, d = 30000) ∧
    (∀ k, k < 20 → (∀ j, j < k → ¬ isTerminal (getResult j)) →
      (((getResult k).status = "completed" →
          (pollForTranscriptionCompletion getResult 30000 20).outcome =
            PollOutcome.completed (getResult k) ∧
          (pollForTranscriptionCompletion getResult 30000 20).fetches = k + 1) ∧
        ((getResult k).status = "error" →
          (pollForTranscriptionCompletion getResult 30000 20).outcome =
            PollOutcome.failed ("Transcription failed: " ++ (getResult k).error) ∧
          (pollForTranscriptionCompletion getResult 30000 20).fetches = k + 1))) ∧
    ((∀ j, j < 20 → ¬ isTerminal (getResult j)) →
      (pollForTranscriptionCompletion getResult 30000 20).outcome =
        PollOutcome.timedOut "Transcription timed out" ∧
      (pollForTranscriptionCompletion getResult 30000 20).fetches = 20) := by
  refine ⟨pollAux_fetches_le getResult 30000 20 0, pollAux_sleeps getResult 30000 20 0, ?_, ?_⟩
  · intro k hk hmin
    have h := pollAux_first_terminal getResult 30000 20 0 k (Nat.zero_le k) (by omega)
      (fun j _ hj2 => hmin j hj2)
    simpa [pollForTranscriptionCompletion] using h
  · intro hmin
    have h := pollAux_timeout getResult 30000 20 0 (fun j _ hj2 => hmin j (by omega))
    simpa [pollForTranscriptionCompletion] using h

theorem poll_loop_behavior_witness :
    (pollForTranscriptionCompletion
        (fun i => if i < 2 then ⟨"processing", "", [], 0⟩ else ⟨"completed", "", [], 0⟩)
        30000 20).outcome = PollOutcome.completed ⟨"completed", "", [], 0⟩ ∧
    (pollForTranscriptionCompletion
        (fun i => if i < 2 then ⟨"processing", "", [], 0⟩ else ⟨"completed", "", [], 0⟩)
        30000 20).fetches = 3 := by
  have h := ((poll_loop_behavior
      (fun i => if i < 2 then ⟨"processing", "", [], 0⟩ else ⟨"completed", "", [], 0⟩)).2.2.1 2
      (by norm_num) (by intro j hj; interval_cases j <;> decide)).1 (by norm_num)
  simpa using h

theorem processTranscription_ok {db : DbEnv} {data : PollResponse} {b : Bool}
    (h : (processTranscription db data).result = Except.ok b) : b = true := by
  unfold processTranscription at h
  rcases h1 : db.insertTranscriptError with _ | m1 <;>
    rcases h2 : (if 0 < (segmentWords data.words).length then db.insertSegmentsError
      else none) with _ | m2 <;>
      rcases h3 : db.updateEpisodeError with _ | m3 <;>
        simp_all

theorem processTranscription_ok_updates {db : DbEnv} {data : PollResponse} {b : Bool}
    (h : (processTranscription db data).result = Except.ok b) :
    (processTranscription db data).updates =
      [{ transcription_status := "completed"
         duration := some ⌈data.audio_duration / 1000⌉ }] := by
  unfold processTranscription at h ⊢
  rcases h1 : db.insertTranscriptError with _ | m1 <;>
    rcases h2 : (if 0 < (segmentWords data.words).length then db.insertSegmentsError
      else none) with _ | m2 <;>
      rcases h3 : db.updateEpisodeError with _ | m3 <;>
        simp_all

theorem processTranscription_error_updates {db : DbEnv} {data : PollResponse} {m : String}
    (h : (processTranscription db data).result = Except.error m) :
    (processTranscription db data).updates =
      [{ transcription_status := "failed", duration := none }] := by
  unfold processTranscription at h ⊢
  rcases h1 : db.insertTranscriptError with _ | m1 <;>
    rcases h2 : (if 0 < (segmentWords data.words).length then db.insertSegmentsError
      else none) with _ | m2 <;>
      rcases h3 : db.updateEpisodeError with _ | m3 <;>
        simp_all

/-- C5: every orchestration run leaves the episode's transcription status
terminal: the last status written is `completed` exactly when submission,
polling, persistence and the final episode update all succeed, and
`failed` whenever any of them fails, in which case the function returns
an unsuccessful result (instead of propagating the error); exactly one
`in_progress` write happens, i.e. there is no requeue or retry. -/
theorem orchestrator_terminal_status (env : OrchEnv) :
    ((transcribeEpisode env).updates.getLast?.map (fun u => u.transcription_status) =
        some "completed" ↔ orchAllOk env) ∧
    (¬ orchAllOk env →
      (transcribeEpisode env).updates.getLast?.map (fun u => u.transcription_status) =
          some "failed" ∧
        (transcribeEpisode env).success = false) ∧
    (orchAllOk env → (transcribeEpisode env).success = true) ∧
    (transcribeEpisode env).updates.countP
        (fun u => u.transcription_status == "in_progress") = 1 := by
  rcases hreq : env.requestResult with e | tid
  · have hnok : ¬ orchAllOk env := by
      rintro ⟨tid, d, h1, h2, h3⟩
      rw [hreq] at h1
      exact absurd h1 (by simp)
    refine ⟨?_, fun _ => ?_, fun h => absurd h hnok, ?_⟩ <;>
      simp [transcribeEpisode, hreq, hnok, List.countP_cons]
  · rcases hout : (pollForTranscriptionCompletion env.getResult 30000 20).outcome with d | m | m
    · rcases hproc : (processTranscription env.db d).result with m | b
      · have hnok : ¬ orchAllOk env := by
          rintro ⟨tid', d', h1, h2, h3⟩
          rw [hreq] at h1
          rw [hout] at h2
          cases h1
          cases h2
          rw [hproc] at h3
          exact absurd h3 (by simp)
        have hupd := processTranscription_error_updates hproc
        refine ⟨?_, fun _ => ?_, fun h => absurd h hnok, ?_⟩ <;>
          simp [transcribeEpisode, hreq, hout, hproc, hnok, hupd, List.countP_cons,
            List.countP_append]
      · have hb : b = true := processTranscription_ok hproc
        have hok : orchAllOk env := ⟨tid, d, hreq, hout, by rw [hproc, hb]⟩
        have hupd := processTranscription_ok_updates hproc
        refine ⟨?_, fun h => absurd hok h, fun _ => ?_, ?_⟩ <;>
          simp [transcribeEpisode, hreq, hout, hproc, hok, hupd, List.countP_cons,
            List.countP_append]
    · have hnok : ¬ orchAllOk env := by
        rintro ⟨tid', d', h1, h2, h3⟩
        rw [hout] at h2
        exact absurd h2 (by simp)
      refine ⟨?_, fun _ => ?_, fun h => absurd h hnok, ?_⟩ <;>
        simp [transcribeEpisode, hreq, hout, hnok, List.countP_cons]
    · have hnok : ¬ orchAllOk env := by
        rintro ⟨tid', d', h1, h2, h3⟩
        rw [hout] at h2
        exact absurd h2 (by simp)
      refine ⟨?_, fun _ => ?_, fun h => absurd h hnok, ?_⟩ <;>
        simp [transcribeEpisode, hreq, hout, hnok, List.countP_cons]

theorem orchestrator_terminal_status_witness :
    (transcribeEpisode ⟨⟨none, none, none⟩, Except.error "network down",
          fun _ => ⟨"processing", "", [], 0⟩⟩).updates.getLast?.map
        (fun u => u.transcription_status) = some "failed" ∧
    (transcribeEpisode ⟨⟨none, none, none⟩, Except.error "network down",
          fun _ => ⟨"processing", "", [], 0⟩⟩).success = false :=
  (orchestrator_terminal_status ⟨⟨none, none, none⟩, Except.error "network down",
      fun _ => ⟨"processing", "", [], 0⟩⟩).2.1
    (by rintro ⟨tid, d, h1, _, _⟩; simp at h1)

/-- C6: when the orchestration succeeds, the final episode update writes
`transcription_status = "completed"` together with the duration
`⌈audio_duration / 1000⌉` — the payload's reported audio length in
milliseconds converted to whole seconds rounded up. -/
theorem orchestrator_success_duration (env : OrchEnv) (d : PollResponse)
    (hok : orchAllOk env)
    (hout : (pollForTranscriptionCompletion env.getResult 30000 20).outcome =
      PollOutcome.completed d) :
    (transcribeEpisode env).updates.getLast? =
      some { transcription_status := "completed"
             duration := some ⌈d.audio_duration / 1000⌉ } := by
  obtain ⟨tid, d', hreq, hout', hproc⟩ := hok
  rw [hout] at hout'
  injection hout' with hd
  subst hd
  have hupd := processTranscription_ok_updates hproc
  simp [transcribeEpisode, hreq, hout, hproc, hupd]

theorem orchestrator_success_duration_witness :
    (transcribeEpisode ⟨⟨none, none, none⟩, Except.ok "t1",
          fun _ => ⟨"completed", "", [], 45500⟩⟩).updates.getLast? =
      some { transcription_status := "completed"
             duration := some ⌈(45500 : ℚ) / 1000⌉ } :=
  orchestrator_success_duration
    ⟨⟨none, none, none⟩, Except.ok "t1", fun _ => ⟨"completed", "", [], 45500⟩⟩
    ⟨"completed", "", [], 45500⟩
    ⟨"t1", ⟨"completed", "", [], 45500⟩, rfl, rfl, rfl⟩ rfl

/-- C7: contrary to the claim, clip creation with `start_time = end_time`
is NOT rejected by any caller — the route's only validation is field
presence, so the boundary request `{episode_id: "ep1", start_time: 5,
end_time: 5}` passes validation and a degenerate clip with fragment
`#t=5,5` is built and persisted. -/
theorem clip_route_accepts_equal_times :
    clipRequestRejected ⟨some "ep1", some 5, some 5, some "text", none⟩ = false ∧
    (generateClip "https://cdn.example/audio.mp3" "ep1" 5 5 (some "text")
        none).audio_clip_url =
      "https://cdn.example/audio.mp3#t=5,5" := by
  constructor
  · decide
  · decide

/-- C8: under the active strategy, `generateClip` persists a clip whose
`audio_clip_url` is exactly the episode's original audio URL with the
time-range fragment `#t=<start_time>,<end_time>` appended, and keeps the
supplied fields unchanged; no other strategy is reachable, whatever the
input. -/
theorem clip_url_fragment_strategy (audio_file_url episode_id : String)
    (start_time end_time : ℚ) (transcript_text search_query : Option String) :
    generateClip audio_file_url episode_id start_time end_time transcript_text search_query =
      { episode_id := episode_id
        start_time := start_time
        end_time := end_time
        transcript_text := transcript_text
        search_query := search_query
        audio_clip_url :=
          audio_file_url ++ "#t=" ++ toString start_time ++ "," ++ toString end_time } := rfl

theorem bumpCount_inv {seen : List String} {counts : List (String × Nat)} (w : String)
    (h : CountsInv seen counts) : CountsInv (seen ++ [w]) (bumpCount counts w) := by
  obtain ⟨hnd, hcnt, hmem⟩ := h
  by_cases hin : counts.any (fun p => p.1 == w)
  · have hkeys : (counts.map (fun p => if p.1 == w then (p.1, p.2 + 1) else p)).map Prod.fst =
        counts.map Prod.fst := by
      rw [List.map_map]
      refine List.map_congr_left ?_
      intro p _
      simp only [Function.comp_apply]
      split <;> rfl
    have hwk : w ∈ counts.map Prod.fst := by
      rw [List.any_eq_true] at hin
      obtain ⟨p, hp, hpe⟩ := hin
      rw [beq_iff_eq] at hpe
      exact hpe ▸ List.mem_map_of_mem Prod.fst hp
    refine ⟨?_, ?_, ?_⟩
    · simpa only [bumpCount, if_pos hin, hkeys] using hnd
    · intro q hq
      simp only [bumpCount, if_pos hin, List.mem_map] at hq
      obtain ⟨p, hp, rfl⟩ := hq
      by_cases hpw : p.1 == w
      · have hpw' : p.1 = w := by rwa [beq_iff_eq] at hpw
        simp only [if_pos hpw, List.count_append, List.count_singleton, hpw',
          beq_self_eq_true, if_true]
        rw [hcnt p hp, hpw']
      · have hpw' : ¬ (w == p.1) := by
          rw [beq_iff_eq]
          intro hh
          exact hpw (by rw [beq_iff_eq, hh])
        simp only [if_neg hpw, List.count_append, List.count_singleton, if_neg hpw']
        rw [hcnt p hp]
        omega
    · intro v
      simp only [bumpCount, if_pos hin, hkeys, List.mem_append, List.mem_singleton]
      constructor
      · rintro (hv | rfl)
        · exact (hmem v).mp hv
        · exact hwk
      · intro hv
        exact Or.inl ((hmem v).mpr hv)
  · have hwnk : w ∉ counts.map Prod.fst := by
      intro hc
      rw [List.mem_map] at hc
      obtain ⟨p, hp, hpw⟩ := hc
      apply hin
      rw [List.any_eq_true]
      exact ⟨p, hp, by rw [beq_iff_eq]; exact hpw⟩
    have hwns : w ∉ seen := fun hs => hwnk ((hmem w).mp hs)
    refine ⟨?_, ?_, ?_⟩
    · simp only [bumpCount, if_neg hin, List.map_append, List.map_cons, List.map_nil]
      rw [List.nodup_append]
      refine ⟨hnd, by simp, ?_⟩
      intro v hv hv2
      simp only [List.mem_cons, List.not_mem_nil, or_false] at hv2
      exact hwnk (hv2 ▸ hv)
    · intro q hq
      simp only [bumpCount, if_neg hin, List.mem_append, List.mem_singleton] at hq
      rcases hq with hq | hq
      · have hqw : ¬ (w == q.1) := by
          rw [beq_iff_eq]
          rintro rfl
          exact hwnk (List.mem_map_of_mem Prod.fst hq)
        rw [List.count_append, List.count_singleton, if_neg hqw, hcnt q hq]
        omega
      · subst hq
        simp only [List.count_append, List.count_singleton, beq_self_eq_true, if_true]
        rw [List.count_eq_zero.mpr hwns]
    · intro v
      simp only [bumpCount, if_neg hin, List.map_append, List.map_cons, List.map_nil,
        List.mem_append, List.mem_singleton, List.mem_cons, List.not_mem_nil, or_false]
      rw [hmem v]

theorem foldl_bumpCount_inv (ws : List String) :
    ∀ (seen : List String) (counts : List (String × Nat)), CountsInv seen counts →
      CountsInv (seen ++ ws) (ws.foldl bumpCount counts) := by
  induction ws with
  | nil => intro s c h; simpa using h
  | cons w ws ih =>
    intro s c h
    have h2 := ih (s ++ [w]) (bumpCount c w) (bumpCount_inv w h)
    simpa [List.append_assoc] using h2

theorem wordCounts_inv (ws : List String) : CountsInv ws (wordCounts ws) := by
  have h := foldl_bumpCount_inv ws [] [] ⟨by simp, by simp, by simp⟩
  simpa [wordCounts] using h

theorem topFreq_length (ws : List String) :
    ((((wordCounts ws).mergeSort (fun a b => decide (b.2 ≤ a.2))).take 10).map
      (fun p => p.1)).length ≤ 10 := by
  simp [List.length_take]

theorem topFreq_mem {ws : List String} {w : String}
    (hw : w ∈ (((wordCounts ws).mergeSort (fun a b => decide (b.2 ≤ a.2))).take 10).map
      (fun p => p.1)) : w ∈ ws := by
  rw [List.mem_map] at hw
  obtain ⟨p, hp, rfl⟩ := hw
  have hps : p ∈ (wordCounts ws).mergeSort (fun a b => decide (b.2 ≤ a.2)) :=
    (List.take_sublist 10 _).subset hp
  have hpc : p ∈ wordCounts ws := (List.mergeSort_perm (wordCounts ws) _).mem_iff.mp hps
  exact ((wordCounts_inv ws).2.2 p.1).mpr (List.mem_map_of_mem Prod.fst hpc)

theorem topFreq_counts {ws : List String} {p : String × Nat}
    (hp : p ∈ (wordCounts ws).mergeSort (fun a b => decide (b.2 ≤ a.2))) :
    p.2 = ws.count p.1 := by
  have hpc : p ∈ wordCounts ws := (List.mergeSort_perm (wordCounts ws) _).mem_iff.mp hp
  exact (wordCounts_inv ws).2.1 p hpc

theorem topFreq_sorted (ws : List String) :
    List.Pairwise (fun a b : String × Nat => decide (b.2 ≤ a.2) = true)
      ((wordCounts ws).mergeSort (fun a b => decide (b.2 ≤ a.2))) := by
  refine @List.sorted_mergeSort (String × Nat) (fun a b => decide (b.2 ≤ a.2)) ?_ ?_
    (wordCounts ws)
  · intro a b c h1 h2
    simp only [decide_eq_true_eq] at h1 h2 ⊢
    omega
  · intro a b
    simp [Nat.le_total]

theorem topFreq_chain (ws : List String) :
    List.Chain' (fun a b => ws.count b ≤ ws.count a)
      ((((wordCounts ws).mergeSort (fun a b => decide (b.2 ≤ a.2))).take 10).map
        (fun p => p.1)) := by
  rw [List.chain'_map]
  refine List.Pairwise.chain' ?_
  have h10 : List.Pairwise (fun a b : String × Nat => decide (b.2 ≤ a.2) = true)
      (((wordCounts ws).mergeSort (fun a b => decide (b.2 ≤ a.2))).take 10) :=
    List.Pairwise.sublist (List.take_sublist 10 _) (topFreq_sorted ws)
  refine h10.imp_of_mem ?_
  intro p q hp hq h
  have hps := (List.take_sublist 10 _).subset hp
  have hqs := (List.take_sublist 10 _).subset hq
  rw [← topFreq_counts hps, ← topFreq_counts hqs]
  simpa using h

theorem topFreq_dominant {ws : List String} {v : String} (hv : v ∈ ws)
    (hnv : v ∉ (((wordCounts ws).mergeSort (fun a b => decide (b.2 ≤ a.2))).take 10).map
      (fun p => p.1)) :
    ∀ w ∈ (((wordCounts ws).mergeSort (fun a b => decide (b.2 ≤ a.2))).take 10).map
      (fun p => p.1), ws.count v ≤ ws.count w := by
  intro w hw
  rw [List.mem_map] at hw
  obtain ⟨q, hq, rfl⟩ := hw
  obtain ⟨hnd, hcnt, hmem⟩ := wordCounts_inv ws
  have hvk : v ∈ (wordCounts ws).map Prod.fst := (hmem v).mp hv
  rw [List.mem_map] at hvk
  obtain ⟨pv, hpvc, hpv1⟩ := hvk
  have hpvs : pv ∈ (wordCounts ws).mergeSort (fun a b => decide (b.2 ≤ a.2)) :=
    (List.mergeSort_perm (wordCounts ws) _).mem_iff.mpr hpvc
  rw [← List.take_append_drop 10 ((wordCounts ws).mergeSort (fun a b => decide (b.2 ≤ a.2))),
    List.mem_append] at hpvs
  rcases hpvs with hpvt | hpvd
  · exact absurd (hpv1 ▸ List.mem_map_of_mem Prod.fst hpvt) hnv
  · have hsplit : List.Pairwise (fun a b : String × Nat => decide (b.2 ≤ a.2) = true)
        (((wordCounts ws).mergeSort (fun a b => decide (b.2 ≤ a.2))).take 10 ++
          ((wordCounts ws).mergeSort (fun a b => decide (b.2 ≤ a.2))).drop 10) := by
      rw [List.take_append_drop]
      exact topFreq_sorted ws
    have hle := (List.pairwise_append.mp hsplit).2.2 q hq pv hpvd
    simp only [decide_eq_true_eq] at hle
    have hqs := (List.take_sublist 10 _).subset hq
    rw [← topFreq_counts hqs, ← hpv1, ← hcnt pv hpvc]
    exact hle

theorem topFreq_nodup (ws : List String) :
    ((((wordCounts ws).mergeSort (fun a b => decide (b.2 ≤ a.2))).take 10).map
      (fun p => p.1)).Nodup := by
  have h1 : (((wordCounts ws).mergeSort (fun a b => decide (b.2 ≤ a.2))).map Prod.fst).Nodup :=
    (((List.mergeSort_perm (wordCounts ws) _).map Prod.fst).symm).nodup (wordCounts_inv ws).1
  rw [List.map_take]
  exact List.Nodup.sublist (List.take_sublist 10 _) h1

/-- C9: when its query has at least one token longer than 3 characters
and the segment fetch succeeds, the related-keywords operation issues
exactly one segment query — the query words joined disjunctively with
`' | '`, limited to 50 rows — and returns at most 10 pairwise-distinct
keywords, each a lower-cased token of the fetched segment texts that is
longer than 3 characters and not a query word, listed in descending
frequency order, and every candidate token left out is no more frequent
than any returned keyword. -/
theorem related_keywords_spec
    (fetchSegments : SegmentsRequest → Except String (List String))
    (query : String) (segTexts : List String)
    (hq : queryWordsOf query ≠ [])
    (hf : fetchSegments { tsquery := buildTextSearchQuery (queryWordsOf query), limit := 50 } =
      Except.ok segTexts) :
    (getRelatedKeywords fetchSegments query).request =
      some { tsquery := buildTextSearchQuery (queryWordsOf query), limit := 50 } ∧
    (getRelatedKeywords fetchSegments query).keywords.length ≤ 10 ∧
    (∀ w ∈ (getRelatedKeywords fetchSegments query).keywords,
      3 < w.length ∧ w ∉ queryWordsOf query ∧ w ∈ relatedPool query segTexts) ∧
    List.Chain'
      (fun a b => (relatedPool query segTexts).count b ≤ (relatedPool query segTexts).count a)
      (getRelatedKeywords fetchSegments query).keywords ∧
    (∀ v ∈ relatedPool query segTexts,
      v ∉ (getRelatedKeywords fetchSegments query).keywords →
      ∀ w ∈ (getRelatedKeywords fetchSegments query).keywords,
        (relatedPool query segTexts).count v ≤ (relatedPool query segTexts).count w) ∧
    (getRelatedKeywords fetchSegments query).keywords.Nodup := by
  have hq0 : ¬ (queryWordsOf query).length = 0 := by
    simpa [List.length_eq_zero] using hq
  have hout : getRelatedKeywords fetchSegments query =
      { request := some { tsquery := buildTextSearchQuery (queryWordsOf query), limit := 50 }
        keywords := (((wordCounts (relatedPool query segTexts)).mergeSort
          (fun a b => decide (b.2 ≤ a.2))).take 10).map (fun p => p.1) } := by
    simp only [getRelatedKeywords, if_neg hq0, hf]
  rw [hout]
  refine ⟨rfl, topFreq_length _, ?_, topFreq_chain _, ?_, topFreq_nodup _⟩
  · intro w hw
    have hwin := topFreq_mem hw
    have h1 := List.mem_filter.mp hwin
    have h2 := List.mem_filter.mp h1.1
    refine ⟨by simpa using h2.2, ?_, hwin⟩
    have := h1.2
    simp only [Bool.not_eq_eq_eq_not, Bool.not_true] at this
    simpa using this
  · intro v hv hnv w hw
    exact topFreq_dominant hv hnv w hw

theorem related_keywords_spec_witness :
    (getRelatedKeywords (fun _ => Except.ok ["apple banana banana cherry"]) "apple").request =
      some { tsquery := buildTextSearchQuery (queryWordsOf "apple"), limit := 50 } ∧
    (getRelatedKeywords (fun _ =>
        Except.ok ["apple banana banana cherry"]) "apple").keywords.length ≤ 10 ∧
    (∀ w ∈ (getRelatedKeywords (fun _ =>
        Except.ok ["apple banana banana cherry"]) "apple").keywords,
      3 < w.length ∧ w ∉ queryWordsOf "apple" ∧
        w ∈ relatedPool "apple" ["apple banana banana cherry"]) ∧
    List.Chain'
      (fun a b => (relatedPool "apple" ["apple banana banana cherry"]).count b ≤
        (relatedPool "apple" ["apple banana banana cherry"]).count a)
      (getRelatedKeywords (fun _ => Except.ok ["apple banana banana cherry"]) "apple").keywords ∧
    (∀ v ∈ relatedPool "apple" ["apple banana banana cherry"],
      v ∉ (getRelatedKeywords (fun _ =>
        Except.ok ["apple banana banana cherry"]) "apple").keywords →
      ∀ w ∈ (getRelatedKeywords (fun _ =>
        Except.ok ["apple banana banana cherry"]) "apple").keywords,
        (relatedPool "apple" ["apple banana banana cherry"]).count v ≤
          (relatedPool "apple" ["apple banana banana cherry"]).count w) ∧
    (getRelatedKeywords (fun _ =>
        Except.ok ["apple banana banana cherry"]) "apple").keywords.Nodup :=
  related_keywords_spec (fun _ => Except.ok ["apple banana banana cherry"]) "apple"
    ["apple banana banana cherry"] (by decide) rfl

/-- C10: the related-keywords operation is total at its interface — it
returns the empty list (with no segment query issued) whenever no token
of the lower-cased query is longer than 3 characters, and returns the
empty list whenever the segment fetch fails, every internal error being
converted into an empty result. -/
theorem related_keywords_total
    (fetchSegments : SegmentsRequest → Except String (List String)) (query : String) :
    (queryWordsOf query = [] →
      getRelatedKeywords fetchSegments query = { request := none, keywords := [] }) ∧
    (∀ e, fetchSegments { tsquery := buildTextSearchQuery (queryWordsOf query), limit := 50 } =
        Except.error e →
      (getRelatedKeywords fetchSegments query).keywords = []) := by
  constructor
  · intro h
    simp [getRelatedKeywords, h]
  · intro e he
    by_cases h : queryWordsOf query = []
    · simp [getRelatedKeywords, h]
    · have h0 : ¬ (queryWordsOf query).length = 0 := by
        simpa [List.length_eq_zero] using h
      simp [getRelatedKeywords, h0, he]

theorem related_keywords_total_witness :
    getRelatedKeywords (fun _ => Except.error "db down") "an of" =
      { request := none, keywords := [] } ∧
    (getRelatedKeywords (fun _ => Except.error "db down") "hello world").keywords = [] :=
  ⟨(related_keywords_total (fun _ => Except.error "db down") "an of").1 (by decide),
   (related_keywords_total (fun _ => Except.error "db down") "hello world").2 "db down" rfl⟩
